import Mathlib

/-!
Verification of `market_analyzer_optimization/fyers_auth.py`.

Strings are embedded as `List Char`.  Python's `str.split(sep)` for a
non-empty separator (split at every non-overlapping occurrence, left to
right) is embedded as `splitOnL`; Python's substring test `sep in s` as
`containsSub`.  The effectful authentication flow is embedded as a pure
function from an `AuthWorld` (user input, environment, vendor responses,
prior token-file content) to the ordered list of its side effects and its
return value.
-/

namespace FyersAuth

/-- `leadsWith p s` is true when the list `p` is an initial segment of `s`
(Python: `s.startswith(p)`). -/
def leadsWith : List Char → List Char → Bool
  | [], _ => true
  | _ :: _, [] => false
  | a :: as, b :: bs => a == b && leadsWith as bs

/-- `containsSub sep s` is true when `sep` occurs as a contiguous substring
of `s` (Python: `sep in s`). -/
def containsSub (sep : List Char) : List Char → Bool
  | [] => leadsWith sep []
  | c :: rest => leadsWith sep (c :: rest) || containsSub sep rest

/-- Worker for `splitOnL`: the separator is `c0 :: sep` (hence non-empty),
`acc` holds the current segment reversed.  Mirrors CPython's `str.split`
for a non-empty separator: scan left to right, cut at every
non-overlapping occurrence. -/
def splitOnGo (c0 : Char) (sep : List Char) (s : List Char) (acc : List Char) :
    List (List Char) :=
  match s with
  | [] => [acc.reverse]
  | c :: rest =>
    if leadsWith (c0 :: sep) (c :: rest) then
      acc.reverse :: splitOnGo c0 sep (rest.drop sep.length) []
    else
      splitOnGo c0 sep rest (c :: acc)
termination_by s.length
decreasing_by
  · simp only [List.length_cons, List.length_drop]
    omega
  · simp

/-- Python `s.split(sep)` for a non-empty `sep` (the empty-separator case
raises in Python and is never used by the script). -/
def splitOnL (sep s : List Char) : List (List Char) :=
  match sep with
  | [] => [s]
  | c0 :: sepRest => splitOnGo c0 sepRest s []

/-- The literal separator `"auth_code="` from line 66 of the script. -/
def AUTH_MARK : List Char := "auth_code=".toList

/-- The literal separator `"&"` from line 66 of the script. -/
def AMP : List Char := "&".toList

/-- The dictionary key `"access_token"` from line 75 of the script. -/
def ACCESS_TOKEN_KEY : List Char := "access_token".toList

/-- Line 66: `redirect_url.split("auth_code=")[1].split("&")[0]`, evaluated
without the `auth_code= in redirect_url` guard. -/
def rawExtract (redirect_url : List Char) : List Char :=
  (splitOnL AMP ((splitOnL AUTH_MARK redirect_url).getD 1 [])).getD 0 []

/-- Lines 61-66: the guarded auth-code extraction (`none` when
`"auth_code="` does not occur in the pasted URL). -/
def extract_auth_code (redirect_url : List Char) : Option (List Char) :=
  if containsSub AUTH_MARK redirect_url then
    some (rawExtract redirect_url)
  else
    none

/-- The longest initial segment of `s` that stops just before the first
occurrence of `sep` (all of `s` when `sep` does not occur). -/
def upToFirst (sep : List Char) : List Char → List Char
  | [] => []
  | c :: rest =>
    if leadsWith sep (c :: rest) then [] else c :: upToFirst sep rest

/-- The remainder of `s` immediately after the first occurrence of `sep`
(empty when `sep` does not occur). -/
def tailAfterFirst (sep : List Char) : List Char → List Char
  | [] => []
  | c :: rest =>
    if leadsWith sep (c :: rest) then (c :: rest).drop sep.length
    else tailAfterFirst sep rest

theorem leadsWith_iff (p : List Char) :
    ∀ s, leadsWith p s = true ↔ ∃ t, p ++ t = s := by
  induction p with
  | nil =>
    intro s
    simp [leadsWith]
  | cons a as ih =>
    intro s
    cases s with
    | nil => simp [leadsWith]
    | cons b bs =>
      simp only [leadsWith, Bool.and_eq_true, beq_iff_eq, ih bs, List.cons_append,
        List.cons.injEq]
      constructor
      · rintro ⟨rfl, t, rfl⟩
        exact ⟨t, rfl, rfl⟩
      · rintro ⟨t, rfl, rfl⟩
        exact ⟨rfl, t, rfl⟩

theorem containsSub_iff (sep : List Char) :
    ∀ s, containsSub sep s = true ↔ ∃ a b, s = a ++ sep ++ b := by
  intro s
  induction s with
  | nil =>
    simp only [containsSub, leadsWith_iff]
    constructor
    · rintro ⟨t, ht⟩
      rcases List.append_eq_nil.mp ht with ⟨rfl, rfl⟩
      exact ⟨[], [], rfl⟩
    · rintro ⟨a, b, hab⟩
      rcases List.append_eq_nil.mp (List.append_eq_nil.mp hab.symm).1 with ⟨_, rfl⟩
      rcases List.append_eq_nil.mp hab.symm with ⟨_, rfl⟩
      exact ⟨[], by simp⟩
  | cons c rest ih =>
    simp only [containsSub, Bool.or_eq_true, leadsWith_iff, ih]
    constructor
    · rintro (⟨t, ht⟩ | ⟨a, b, rfl⟩)
      · exact ⟨[], t, by simp [ht]⟩
      · exact ⟨c :: a, b, by simp⟩
    · rintro ⟨a, b, hab⟩
      cases a with
      | nil =>
        exact Or.inl ⟨b, by simpa using hab.symm⟩
      | cons a0 as =>
        simp only [List.cons_append, List.cons.injEq] at hab
        exact Or.inr ⟨as, b, hab.2⟩

theorem leadsWith_extend {sep u r v : List Char} (h : leadsWith sep u = true)
    (hur : u ++ r = v) : leadsWith sep v = true := by
  rcases (leadsWith_iff sep u).mp h with ⟨t, rfl⟩
  exact (leadsWith_iff sep v).mpr ⟨t ++ r, by simp [← hur]⟩

theorem containsSub_of_extend {sep u r v : List Char}
    (h : containsSub sep u = true) (hur : u ++ r = v) : containsSub sep v = true := by
  rcases (containsSub_iff sep u).mp h with ⟨a, b, rfl⟩
  exact (containsSub_iff sep v).mpr ⟨a, b ++ r, by simp [← hur]⟩

theorem upToFirst_append (sep : List Char) :
    ∀ s, ∃ r, upToFirst sep s ++ r = s := by
  intro s
  induction s with
  | nil => exact ⟨[], rfl⟩
  | cons c rest ih =>
    by_cases h : leadsWith sep (c :: rest) = true
    · exact ⟨c :: rest, by simp [upToFirst, h]⟩
    · rcases ih with ⟨r, hr⟩
      exact ⟨r, by simp [upToFirst, h, hr]⟩

theorem upToFirst_not_contains {sep : List Char} (hne : sep ≠ []) :
    ∀ s, containsSub sep (upToFirst sep s) = false := by
  intro s
  induction s with
  | nil =>
    cases sep with
    | nil => exact absurd rfl hne
    | cons c0 cs => simp [upToFirst, containsSub, leadsWith]
  | cons c rest ih =>
    by_cases h : leadsWith sep (c :: rest) = true
    · have hu : upToFirst sep (c :: rest) = [] := by simp only [upToFirst, h, if_true]
      rw [hu]
      cases sep with
      | nil => exact absurd rfl hne
      | cons c0 cs => simp [containsSub, leadsWith]
    · simp only [upToFirst, h, if_false, containsSub, Bool.or_eq_false_iff]
      refine ⟨?_, ih⟩
      rcases upToFirst_append sep rest with ⟨r, hr⟩
      by_contra hl
      rw [Bool.not_eq_false] at hl
      exact h (leadsWith_extend hl
        (show (c :: upToFirst sep rest) ++ r = c :: rest by simp [hr]))

theorem splitOnGo_head (c0 : Char) (sep : List Char) :
    ∀ s acc, (splitOnGo c0 sep s acc).getD 0 [] =
      acc.reverse ++ upToFirst (c0 :: sep) s := by
  intro s
  induction s with
  | nil =>
    intro acc
    simp [splitOnGo, upToFirst]
  | cons c rest ih =>
    intro acc
    by_cases h : leadsWith (c0 :: sep) (c :: rest) = true
    · rw [splitOnGo]
      simp only [h, if_true, upToFirst, List.getD_cons_zero, List.append_nil]
    · rw [splitOnGo]
      simp only [h, Bool.false_eq_true, if_false, upToFirst, ih, List.reverse_cons,
        List.append_assoc, List.singleton_append]

theorem splitOnGo_of_contains (c0 : Char) (sep : List Char) :
    ∀ s acc, containsSub (c0 :: sep) s = true →
      splitOnGo c0 sep s acc =
        (acc.reverse ++ upToFirst (c0 :: sep) s) ::
          splitOnGo c0 sep (tailAfterFirst (c0 :: sep) s) [] := by
  intro s
  induction s with
  | nil =>
    intro acc hc
    simp [containsSub, leadsWith] at hc
  | cons c rest ih =>
    intro acc hc
    by_cases h : leadsWith (c0 :: sep) (c :: rest) = true
    · rw [splitOnGo]
      simp only [h, if_true, upToFirst, tailAfterFirst, List.append_nil,
        List.length_cons, List.drop_succ_cons]
    · have hc' : containsSub (c0 :: sep) rest = true := by
        simpa [containsSub, h] using hc
      rw [splitOnGo]
      simp only [h, Bool.false_eq_true, if_false, upToFirst, tailAfterFirst, ih _ hc',
        List.reverse_cons, List.append_assoc, List.singleton_append]

theorem splitOnL_getD_zero (sep s : List Char) (hne : sep ≠ []) :
    (splitOnL sep s).getD 0 [] = upToFirst sep s := by
  cases sep with
  | nil => exact absurd rfl hne
  | cons c0 cs =>
    rw [splitOnL]
    simpa using splitOnGo_head c0 cs s []

theorem splitOnL_getD_one (sep s : List Char) (hne : sep ≠ [])
    (hc : containsSub sep s = true) :
    (splitOnL sep s).getD 1 [] = upToFirst sep (tailAfterFirst sep s) := by
  cases sep with
  | nil => exact absurd rfl hne
  | cons c0 cs =>
    rw [splitOnL, splitOnGo_of_contains c0 cs s [] hc]
    simpa using splitOnGo_head c0 cs (tailAfterFirst (c0 :: cs) s) []

/-- The auth code the script actually computes, characterised without
`split`: the characters after the first `"auth_code="`, cut at the next
occurrence of `"auth_code="`, then cut at the next `"&"`. -/
def firstCodeSegment (url : List Char) : List Char :=
  upToFirst AMP (upToFirst AUTH_MARK (tailAfterFirst AUTH_MARK url))

/-- Modelled from the claim wording of C1: everything between the first
occurrence of `"auth_code="` and the next `"&"` (or the end of the
string). -/
def claimC1Segment (url : List Char) : List Char :=
  upToFirst AMP (tailAfterFirst AUTH_MARK url)

theorem rawExtract_eq_firstCodeSegment (url : List Char)
    (hc : containsSub AUTH_MARK url = true) :
    rawExtract url = firstCodeSegment url := by
  rw [rawExtract, firstCodeSegment, splitOnL_getD_one AUTH_MARK url (by decide) hc,
    splitOnL_getD_zero AMP _ (by decide)]

theorem not_contains_of_front {sep u r v : List Char}
    (h : containsSub sep v = false) (hur : u ++ r = v) :
    containsSub sep u = false := by
  by_contra hu
  rw [Bool.not_eq_false] at hu
  rw [containsSub_of_extend hu hur] at h
  simp at h

/-! ## The authentication flow -/

/-- Name of the first environment variable read on line 23. -/
def CID_KEY : List Char := "FYERS_CLIENT_ID".toList

/-- Name of the second environment variable read on line 24. -/
def SK_KEY : List Char := "FYERS_SECRET_KEY".toList

/-- Line 23: `os.getenv('FYERS_CLIENT_ID', 'GBJMHA44CH-100')`. -/
def FYERS_CLIENT_ID (env : List Char → Option (List Char)) : List Char :=
  (env CID_KEY).getD "GBJMHA44CH-100".toList

/-- Line 24: `os.getenv('FYERS_SECRET_KEY', 'YW543H05CG')`. -/
def FYERS_SECRET_KEY (env : List Char → Option (List Char)) : List Char :=
  (env SK_KEY).getD "YW543H05CG".toList

/-- Line 25: the fixed redirect target. -/
def REDIRECT_URI : List Char := "https://www.google.com/".toList

/-- The externally supplied parts of one run of `authenticate_fyers`:
the process environment, the URL the user pastes at the `input(...)`
prompt, the vendor's token-exchange response as a function of the auth
code passed to `session.set_token`, and the content of
`fyers_token.txt` before the run (`none` when the file is absent). -/
structure AuthWorld where
  env : List Char → Option (List Char)
  user_input : List Char
  exchange : List Char → List (List Char × List Char)
  token_file : Option (List Char)

/-- The observable side effects of `authenticate_fyers`, in program
order. -/
inductive AuthEvent where
  | session_created (client_id secret_key redirect_uri : List Char)
  | auth_url_generated
  | browser_opened
  | input_read
  | token_set (code : List Char)
  | token_exchanged
  | file_written (content : List Char)
  deriving DecidableEq

/-- Python `key in d` / `d[key]` on a string-to-string dict, embedded as
first-match lookup in an association list. -/
def dictLookup (m : List (List Char × List Char)) (k : List Char) :
    Option (List Char) :=
  match m with
  | [] => none
  | (k2, v) :: rest => if k2 = k then some v else dictLookup rest k

/-- Lines 27-87, `authenticate_fyers`: session creation, auth-URL
generation, browser launch, the blocking `input` read, the
`auth_code=` guard, the inline extraction of line 66, `set_token` /
`generate_token`, and the conditional write of `fyers_token.txt`.
Returns the ordered event trace and the function's return value
(`none` embeds Python `None`). -/
def authenticate_fyers (w : AuthWorld) :
    List AuthEvent × Option (List Char) :=
  let pre : List AuthEvent :=
    [.session_created (FYERS_CLIENT_ID w.env) (FYERS_SECRET_KEY w.env) REDIRECT_URI,
     .auth_url_generated, .browser_opened, .input_read]
  let redirect_url := w.user_input
  if containsSub AUTH_MARK redirect_url then
    let auth_code := rawExtract redirect_url
    let response := w.exchange auth_code
    match dictLookup response ACCESS_TOKEN_KEY with
    | some access_token =>
      (pre ++ [.token_set auth_code, .token_exchanged, .file_written access_token],
       some access_token)
    | none =>
      (pre ++ [.token_set auth_code, .token_exchanged], none)
  else
    (pre, none)

/-- The content of `fyers_token.txt` after the trace `tr`, starting from
prior content `prior` (each `file_written` overwrites). -/
def finalFile (prior : Option (List Char)) : List AuthEvent → Option (List Char)
  | [] => prior
  | .file_written t :: rest => finalFile (some t) rest
  | _ :: rest => finalFile prior rest

/-- Recognises a write to `fyers_token.txt`. -/
def isWriteEvent : AuthEvent → Bool
  | .file_written _ => true
  | _ => false

/-- Recognises a call into the vendor token exchange
(`session.set_token` or `session.generate_token`). -/
def isExchangeEvent : AuthEvent → Bool
  | .token_set _ => true
  | .token_exchanged => true
  | _ => false

/-- The kind of a step, forgetting its payload. -/
inductive StepKind where
  | sessionK | urlK | browserK | inputK | setK | exchangeK | writeK
  deriving DecidableEq

/-- Forgets an event's payload. -/
def kindOf : AuthEvent → StepKind
  | .session_created _ _ _ => .sessionK
  | .auth_url_generated => .urlK
  | .browser_opened => .browserK
  | .input_read => .inputK
  | .token_set _ => .setK
  | .token_exchanged => .exchangeK
  | .file_written _ => .writeK

/-- The single pass the script can make through its steps. -/
def canonicalOrder : List StepKind :=
  [.sessionK, .urlK, .browserK, .inputK, .setK, .exchangeK, .writeK]

/-! ## Token validation (`test_token`) -/

/-- A Python value as far as `test_token` inspects one: a string or a
dict. -/
inductive PyVal where
  | pystr (s : List Char)
  | pydict (m : List (List Char × PyVal))

/-- First-match lookup in a dict whose values are `PyVal`s. -/
def pdictLookup (m : List (List Char × PyVal)) (k : List Char) : Option PyVal :=
  match m with
  | [] => none
  | (k2, v) :: rest => if k2 = k then some v else pdictLookup rest k

/-- The observable outcome of one run of `test_token`. -/
structure TestTokenRun where
  result : Bool
  profile_calls : Nat
  model_client_id : List Char
  deriving DecidableEq

/-- The dict key `'s'` from line 101. -/
def S_KEY : List Char := "s".toList

/-- The status value `'ok'` from line 101. -/
def OK_VAL : List Char := "ok".toList

/-- The dict key `'data'` from line 103. -/
def DATA_KEY : List Char := "data".toList

/-- Lines 89-111, `test_token`: builds a `FyersModel` from
`FYERS_CLIENT_ID` and the token, calls `get_profile` once
(`profile_result = none` embeds a raised exception), and returns `True`
exactly when `profile['s'] == 'ok'` and the subsequent
`profile['data'].get('name', 'Unknown')` does not raise — which needs
`'data'` to be present and to be a dict.  Any exception (including the
`KeyError` / `AttributeError` from the `'data'` access) is caught and
yields `False`. -/
def test_token (env : List Char → Option (List Char)) (_access_token : List Char)
    (profile_result : Option (List (List Char × PyVal))) : TestTokenRun :=
  let cid := FYERS_CLIENT_ID env
  match profile_result with
  | none => ⟨false, 1, cid⟩
  | some profile =>
    match pdictLookup profile S_KEY with
    | some (.pystr v) =>
      if v = OK_VAL then
        match pdictLookup profile DATA_KEY with
        | some (.pydict _) => ⟨true, 1, cid⟩
        | some (.pystr _) => ⟨false, 1, cid⟩
        | none => ⟨false, 1, cid⟩
      else
        ⟨false, 1, cid⟩
    | some (.pydict _) => ⟨false, 1, cid⟩
    | none => ⟨false, 1, cid⟩

/-! ## Claims -/

/-- C1, counterexample: on `"auth_code=Aauth_code=B"` the script extracts
`"A"`, while "the characters between the first occurrence of
`auth_code=` and the next `&` (or the end of the string)" are
`"Aauth_code=B"` — Python's `split` also cuts at the second occurrence
of `auth_code=`. -/
theorem C1_counterexample :
    extract_auth_code "auth_code=Aauth_code=B".toList = some "A".toList ∧
    claimC1Segment "auth_code=Aauth_code=B".toList = "Aauth_code=B".toList ∧
    "A".toList ≠ "Aauth_code=B".toList := by
  refine ⟨?_, by decide, by decide⟩
  simp [extract_auth_code, rawExtract, splitOnL, splitOnGo, containsSub, leadsWith,
    AUTH_MARK, AMP]

/-- C1 (amended): for every input string that contains `auth_code=`, the
extraction yields exactly the characters between the first occurrence of
`auth_code=` and the next `&` or the next occurrence of `auth_code=`,
whichever comes first (or the end of the string); in particular
`...auth_code=ABC123&foo=bar` yields `ABC123` and `...auth_code=XYZ`
with no trailing `&` yields `XYZ`. -/
theorem C1_extraction :
    (∀ url : List Char, containsSub AUTH_MARK url = true →
      extract_auth_code url = some (firstCodeSegment url)) ∧
    extract_auth_code "https://www.google.com/?auth_code=ABC123&foo=bar".toList =
      some "ABC123".toList ∧
    extract_auth_code "https://www.google.com/?auth_code=XYZ".toList =
      some "XYZ".toList := by
  have hmain : ∀ url : List Char, containsSub AUTH_MARK url = true →
      extract_auth_code url = some (firstCodeSegment url) := by
    intro url hc
    rw [extract_auth_code, if_pos hc, rawExtract_eq_firstCodeSegment url hc]
  refine ⟨hmain, ?_, ?_⟩
  · rw [hmain _ (by decide)]
    decide
  · rw [hmain _ (by decide)]
    decide

/-- C1, witness: the general part of `C1_extraction` applied to a
concrete URL. -/
theorem C1_extraction_witness :
    containsSub AUTH_MARK "x?auth_code=Q&z".toList = true ∧
    extract_auth_code "x?auth_code=Q&z".toList =
      some (firstCodeSegment "x?auth_code=Q&z".toList) :=
  ⟨by decide, C1_extraction.1 _ (by decide)⟩

/-- C10: an extracted auth code never contains `&` nor the substring
`auth_code=`; it is always the segment immediately after the first
occurrence of `auth_code=`, cut at the next `&` or the next
`auth_code=`, whichever comes first. -/
theorem C10_code_shape :
    ∀ url code : List Char, extract_auth_code url = some code →
      containsSub AMP code = false ∧
      containsSub AUTH_MARK code = false ∧
      code = firstCodeSegment url := by
  intro url code h
  rw [extract_auth_code] at h
  by_cases hc : containsSub AUTH_MARK url = true
  · rw [if_pos hc] at h
    have hcode : code = firstCodeSegment url := by
      have := rawExtract_eq_firstCodeSegment url hc
      injection h with h'
      rw [← h', this]
    subst hcode
    refine ⟨upToFirst_not_contains (by decide) _, ?_, rfl⟩
    have hin : containsSub AUTH_MARK
        (upToFirst AUTH_MARK (tailAfterFirst AUTH_MARK url)) = false :=
      upToFirst_not_contains (by decide) _
    rcases upToFirst_append AMP
        (upToFirst AUTH_MARK (tailAfterFirst AUTH_MARK url)) with ⟨r, hr⟩
    exact not_contains_of_front hin hr
  · rw [if_neg hc] at h
    exact absurd h (by simp)

/-- C10, witness: `C10_code_shape` applied to a concrete URL and its
extracted code. -/
theorem C10_code_shape_witness :
    containsSub AMP "W".toList = false ∧
    containsSub AUTH_MARK "W".toList = false ∧
    "W".toList = firstCodeSegment "a?auth_code=W&q".toList :=
  C10_code_shape "a?auth_code=W&q".toList "W".toList
    (by simp [extract_auth_code, rawExtract, splitOnL, splitOnGo, containsSub,
      leadsWith, AUTH_MARK, AMP])

/-- C2: when the exchange response contains `access_token` with value
`t`, the flow writes exactly `t` to `fyers_token.txt` (one write, which
overwrites any prior content) and returns `t`. -/
theorem C2_persists_token :
    ∀ (w : AuthWorld) (t : List Char),
      containsSub AUTH_MARK w.user_input = true →
      dictLookup (w.exchange (rawExtract w.user_input)) ACCESS_TOKEN_KEY = some t →
      (authenticate_fyers w).2 = some t ∧
      (authenticate_fyers w).1.filter isWriteEvent = [.file_written t] ∧
      finalFile w.token_file (authenticate_fyers w).1 = some t := by
  intro w t hc hl
  simp [authenticate_fyers, hc, hl, finalFile, isWriteEvent, List.filter]

/-- C2, witness: `C2_persists_token` on a concrete world whose exchange
response maps `access_token` to `"tok1"` and whose token file held
`"old"`. -/
theorem C2_persists_token_witness :
    (authenticate_fyers ⟨fun _ => none,
      "https://www.google.com/?auth_code=ABC123&foo=bar".toList,
      fun _ => [(ACCESS_TOKEN_KEY, "tok1".toList)],
      some "old".toList⟩).2 = some "tok1".toList ∧
    (authenticate_fyers ⟨fun _ => none,
      "https://www.google.com/?auth_code=ABC123&foo=bar".toList,
      fun _ => [(ACCESS_TOKEN_KEY, "tok1".toList)],
      some "old".toList⟩).1.filter isWriteEvent =
        [.file_written "tok1".toList] ∧
    finalFile (some "old".toList)
      (authenticate_fyers ⟨fun _ => none,
        "https://www.google.com/?auth_code=ABC123&foo=bar".toList,
        fun _ => [(ACCESS_TOKEN_KEY, "tok1".toList)],
        some "old".toList⟩).1 = some "tok1".toList :=
  C2_persists_token _ "tok1".toList (by decide) rfl

/-- C3: when the exchange response lacks `access_token`, the flow
returns `None` and performs no file write, so the token file keeps its
prior content. -/
theorem C3_failure_keeps_file :
    ∀ w : AuthWorld,
      containsSub AUTH_MARK w.user_input = true →
      dictLookup (w.exchange (rawExtract w.user_input)) ACCESS_TOKEN_KEY = none →
      (authenticate_fyers w).2 = none ∧
      (authenticate_fyers w).1.filter isWriteEvent = [] ∧
      finalFile w.token_file (authenticate_fyers w).1 = w.token_file := by
  intro w hc hl
  simp [authenticate_fyers, hc, hl, finalFile, isWriteEvent, List.filter]

/-- C3, witness: `C3_failure_keeps_file` on a concrete world whose
exchange response has no `access_token` key. -/
theorem C3_failure_keeps_file_witness :
    (authenticate_fyers ⟨fun _ => none, "u?auth_code=AB&x=1".toList,
      fun _ => [("message".toList, "invalid".toList)],
      some "old".toList⟩).2 = none ∧
    (authenticate_fyers ⟨fun _ => none, "u?auth_code=AB&x=1".toList,
      fun _ => [("message".toList, "invalid".toList)],
      some "old".toList⟩).1.filter isWriteEvent = [] ∧
    finalFile (some "old".toList)
      (authenticate_fyers ⟨fun _ => none, "u?auth_code=AB&x=1".toList,
        fun _ => [("message".toList, "invalid".toList)],
        some "old".toList⟩).1 = some "old".toList :=
  C3_failure_keeps_file _ (by decide) rfl

/-- C4: when the pasted URL (including the empty string) does not
contain `auth_code=`, the flow returns `None`, never calls the token
exchange (`set_token` / `generate_token`), and writes nothing. -/
theorem C4_no_code_no_exchange :
    ∀ w : AuthWorld,
      containsSub AUTH_MARK w.user_input = false →
      (authenticate_fyers w).2 = none ∧
      (authenticate_fyers w).1.filter isExchangeEvent = [] ∧
      (authenticate_fyers w).1.filter isWriteEvent = [] ∧
      finalFile w.token_file (authenticate_fyers w).1 = w.token_file := by
  intro w hc
  simp [authenticate_fyers, hc, finalFile, isWriteEvent, isExchangeEvent, List.filter]

/-- C4, witness: `C4_no_code_no_exchange` on a concrete world whose user
pasted the empty string. -/
theorem C4_no_code_no_exchange_witness :
    (authenticate_fyers ⟨fun _ => none, [],
      fun _ => [(ACCESS_TOKEN_KEY, "tok1".toList)], some "old".toList⟩).2 = none ∧
    (authenticate_fyers ⟨fun _ => none, [],
      fun _ => [(ACCESS_TOKEN_KEY, "tok1".toList)],
      some "old".toList⟩).1.filter isExchangeEvent = [] ∧
    (authenticate_fyers ⟨fun _ => none, [],
      fun _ => [(ACCESS_TOKEN_KEY, "tok1".toList)],
      some "old".toList⟩).1.filter isWriteEvent = [] ∧
    finalFile (some "old".toList)
      (authenticate_fyers ⟨fun _ => none, [],
        fun _ => [(ACCESS_TOKEN_KEY, "tok1".toList)],
        some "old".toList⟩).1 = some "old".toList :=
  C4_no_code_no_exchange _ (by decide)

/-- C6, counterexample: a run whose exchange response maps
`access_token` to the empty string makes `authenticate_fyers` return
`Some ""` — neither `None` nor a non-empty string, since the script
never checks the token for emptiness. -/
theorem C6_counterexample :
    (authenticate_fyers ⟨fun _ => none, "auth_code=Q".toList,
      fun _ => [(ACCESS_TOKEN_KEY, [])], none⟩).2 = some [] := by
  have hl : dictLookup [(ACCESS_TOKEN_KEY, ([] : List Char))] ACCESS_TOKEN_KEY =
      some [] := rfl
  simp [authenticate_fyers, containsSub, leadsWith, AUTH_MARK, hl]

/-- C6 (amended): `authenticate_fyers` returns either `None` or exactly
the string stored under `access_token` in the exchange response; that
string is passed through unvalidated, so it is non-empty exactly when
the vendor's token is. -/
theorem C6_return_values :
    ∀ w : AuthWorld,
      (authenticate_fyers w).2 = none ∨
      ∃ t, (authenticate_fyers w).2 = some t ∧
        dictLookup (w.exchange (rawExtract w.user_input)) ACCESS_TOKEN_KEY =
          some t := by
  intro w
  by_cases hc : containsSub AUTH_MARK w.user_input = true
  · cases hl : dictLookup (w.exchange (rawExtract w.user_input)) ACCESS_TOKEN_KEY with
    | none =>
      left
      simp [authenticate_fyers, hc, hl]
    | some t =>
      right
      refine ⟨t, ?_, rfl⟩
      simp [authenticate_fyers, hc, hl]
  · left
    simp [authenticate_fyers, hc]

/-- C7: every run's event trace is a subsequence of the single canonical
pass session-creation → URL generation → browser → terminal read →
set-token → exchange → file write, and no step kind occurs more than
once — no retries and no re-entry, with failures simply truncating the
pass. -/
theorem C7_linear_flow :
    ∀ w : AuthWorld,
      ((authenticate_fyers w).1.map kindOf).Sublist canonicalOrder ∧
      ∀ k : StepKind, ((authenticate_fyers w).1.map kindOf).count k ≤ 1 := by
  intro w
  have hsub : ((authenticate_fyers w).1.map kindOf).Sublist canonicalOrder := by
    by_cases hc : containsSub AUTH_MARK w.user_input = true
    · cases hl : dictLookup (w.exchange (rawExtract w.user_input))
          ACCESS_TOKEN_KEY with
      | none =>
        simp only [authenticate_fyers, hc, if_true, hl]
        simp [kindOf, canonicalOrder]
      | some t =>
        simp only [authenticate_fyers, hc, if_true, hl]
        simp [kindOf, canonicalOrder]
    · simp only [authenticate_fyers, hc, if_false]
      simp [kindOf, canonicalOrder]
  refine ⟨hsub, fun k => ?_⟩
  have hnodup : ((authenticate_fyers w).1.map kindOf).Nodup :=
    List.Nodup.sublist hsub (by decide)
  exact List.nodup_iff_count_le_one.mp hnodup k

/-- C8: the client identifier and secret come from the environment
variables `FYERS_CLIENT_ID` / `FYERS_SECRET_KEY` with the script's
literal fallbacks, and the session created by `authenticate_fyers` and
the model created by `test_token` both use exactly these loaded values
together with the fixed redirect URI. -/
theorem C8_credentials :
    ∀ (w : AuthWorld) (tok : List Char)
      (pr : Option (List (List Char × PyVal))),
      (authenticate_fyers w).1.head? =
        some (.session_created (FYERS_CLIENT_ID w.env) (FYERS_SECRET_KEY w.env)
          REDIRECT_URI) ∧
      (test_token w.env tok pr).model_client_id = FYERS_CLIENT_ID w.env ∧
      (w.env CID_KEY = none → FYERS_CLIENT_ID w.env = "GBJMHA44CH-100".toList) ∧
      (∀ v, w.env CID_KEY = some v → FYERS_CLIENT_ID w.env = v) ∧
      (w.env SK_KEY = none → FYERS_SECRET_KEY w.env = "YW543H05CG".toList) ∧
      (∀ v, w.env SK_KEY = some v → FYERS_SECRET_KEY w.env = v) := by
  intro w tok pr
  refine ⟨?_, ?_, ?_, ?_, ?_, ?_⟩
  · by_cases hc : containsSub AUTH_MARK w.user_input = true
    · cases hl : dictLookup (w.exchange (rawExtract w.user_input))
          ACCESS_TOKEN_KEY with
      | none => simp [authenticate_fyers, hc, hl]
      | some t => simp [authenticate_fyers, hc, hl]
    · simp [authenticate_fyers, hc]
  · cases pr with
    | none => rfl
    | some p =>
      rw [test_token]
      rcases hs : pdictLookup p S_KEY with _ | v
      · rfl
      · cases v with
        | pystr s =>
          by_cases he : s = OK_VAL
          · rcases hd : pdictLookup p DATA_KEY with _ | d
            · simp [he, hd]
            · cases d <;> simp [he, hd]
          · simp [he]
        | pydict m => rfl
  · intro h
    simp [FYERS_CLIENT_ID, h]
  · intro v h
    simp [FYERS_CLIENT_ID, h]
  · intro h
    simp [FYERS_SECRET_KEY, h]
  · intro v h
    simp [FYERS_SECRET_KEY, h]

/-- C8, witness: `C8_credentials` applied with an empty environment and
with an environment that sets both variables. -/
theorem C8_credentials_witness :
    FYERS_CLIENT_ID (fun _ => none) = "GBJMHA44CH-100".toList ∧
    FYERS_SECRET_KEY (fun _ => none) = "YW543H05CG".toList ∧
    FYERS_CLIENT_ID (fun _ => some "X1".toList) = "X1".toList ∧
    FYERS_SECRET_KEY (fun _ => some "X1".toList) = "X1".toList :=
  ⟨(C8_credentials ⟨fun _ => none, [], fun _ => [], none⟩ [] none).2.2.1 rfl,
   (C8_credentials ⟨fun _ => none, [], fun _ => [], none⟩ [] none).2.2.2.2.1 rfl,
   (C8_credentials ⟨fun _ => some "X1".toList, [], fun _ => [], none⟩ []
      none).2.2.2.1 "X1".toList rfl,
   (C8_credentials ⟨fun _ => some "X1".toList, [], fun _ => [], none⟩ []
      none).2.2.2.2.2 "X1".toList rfl⟩

/-- The concrete profile `\x7bs: "ok", data: \x7bname: "Alice"\x7d\x7d`
from the spec's validation example. -/
def aliceProfile : List (List Char × PyVal) :=
  [(S_KEY, .pystr OK_VAL),
   (DATA_KEY, .pydict [("name".toList, .pystr "Alice".toList)])]

/-- C5: `test_token` returns `True` on the profile
`\x7bs: "ok", data: \x7bname: "Alice"\x7d\x7d`, returns `False` when the
profile call raises (embedded as `none`) or the `s` field is absent or
not the string `"ok"` (e.g. `\x7bs: "error"\x7d`), and always makes
exactly one profile-fetch call. -/
theorem C5_validation :
    ∀ (env : List Char → Option (List Char)) (tok : List Char),
      (test_token env tok (some aliceProfile)).result = true ∧
      (test_token env tok none).result = false ∧
      (∀ p, pdictLookup p S_KEY ≠ some (.pystr OK_VAL) →
        (test_token env tok (some p)).result = false) ∧
      (test_token env tok (some [(S_KEY, .pystr "error".toList)])).result = false ∧
      (∀ pr, (test_token env tok pr).profile_calls = 1) := by
  intro env tok
  refine ⟨rfl, rfl, ?_, rfl, ?_⟩
  · intro p hne
    rw [test_token]
    rcases hs : pdictLookup p S_KEY with _ | v
    · rfl
    · cases v with
      | pystr s =>
        have he : s ≠ OK_VAL := by
          intro heq
          exact hne (by rw [hs, heq])
        simp [he]
      | pydict m => rfl
  · intro pr
    cases pr with
    | none => rfl
    | some p =>
      rw [test_token]
      rcases hs : pdictLookup p S_KEY with _ | v
      · rfl
      · cases v with
        | pystr s =>
          by_cases he : s = OK_VAL
          · rcases hd : pdictLookup p DATA_KEY with _ | d
            · simp [he, hd]
            · cases d <;> simp [he, hd]
          · simp [he]
        | pydict m => rfl

/-- C5, witness: `C5_validation` with its inner hypothesis discharged on
the profile `\x7bs: "error"\x7d`. -/
theorem C5_validation_witness :
    (test_token (fun _ => none) []
      (some [(S_KEY, .pystr "error".toList)])).result = false :=
  (C5_validation (fun _ => none) []).2.2.1 _ (by
    intro heq
    rw [show pdictLookup [(S_KEY, PyVal.pystr "error".toList)] S_KEY =
      some (PyVal.pystr "error".toList) from rfl] at heq
    injection heq with h1
    injection h1 with h2
    exact absurd h2 (by decide))

/-- C9: a profile `\x7bs: "ok"\x7d` without the `data` key makes
`test_token` return `False` — the `profile['data']` access raises and is
caught — and more generally `True` requires `data` to be present and to
be a dict. -/
theorem C9_data_required :
    (∀ (env : List Char → Option (List Char)) (tok : List Char),
      (test_token env tok (some [(S_KEY, .pystr OK_VAL)])).result = false) ∧
    (∀ (env : List Char → Option (List Char)) (tok : List Char)
      (p : List (List Char × PyVal)),
      (test_token env tok (some p)).result = true →
      ∃ m, pdictLookup p DATA_KEY = some (.pydict m)) := by
  refine ⟨fun env tok => rfl, ?_⟩
  intro env tok p h
  rw [test_token] at h
  rcases hs : pdictLookup p S_KEY with _ | v
  · rw [hs] at h
    exact absurd h (by simp)
  · rw [hs] at h
    cases v with
    | pystr s =>
      by_cases he : s = OK_VAL
      · rcases hd : pdictLookup p DATA_KEY with _ | d
        · rw [he, hd] at h
          simp at h
        · cases d with
          | pystr s2 =>
            rw [he, hd] at h
            simp at h
          | pydict m => exact ⟨m, rfl⟩
      · simp [he] at h
    | pydict m =>
      exact absurd h (by simp)

/-- C9, witness: `C9_data_required` applied to the Alice profile, whose
validation succeeds, exhibiting its `data` dict. -/
theorem C9_data_required_witness :
    ∃ m, pdictLookup aliceProfile DATA_KEY = some (.pydict m) :=
  C9_data_required.2 (fun _ => none) [] aliceProfile rfl

end FyersAuth
